import Mathlib

/-!
Shallow embedding of the constrained-movement shortest-path search of
`src/src/bin/17.rs` (Advent of Code 2023, day 17).

The Rust code is translated definition by definition:

* `Direction`, `Location`, `Map` mirror the structs of the same names;
  `Map.get?` returns `none` where the Rust unchecked indexing
  `self.0[x][y]` would panic.
* `Movement` mirrors the `Movement` struct.  The field
  `best: Rc<RefCell<Grid<[Option<usize>; 4]>>>` is modelled by an explicit
  store of cache tables (`Store`) threaded through the search, with each
  `Movement` holding the *index* of its table: `Movement.new` appends a
  fresh table (the `Rc::new(RefCell::new(...))` allocation) and successors
  inherit the parent's index (the `self.best.clone()` of an `Rc`).
* Fallible steps (a grid read that would panic in Rust) surface as the
  `none` case of an `Option` result, and as the `Outcome.crash` result of
  the driving loop.
* Rust's `BinaryHeap` is used through its contract only (`pop` returns a
  maximal element under `Movement`'s `Ord`); `popBest` realises that
  contract on a list, keeping the earliest element among `Ord`-equal ones.
* The `while` loop of `seek_end` runs on explicit fuel; `Outcome.fuelOut`
  marks exhausted fuel and is distinct from every result the Rust code can
  produce.
-/

/-- The four cardinal directions (`enum Direction`). -/
inductive Direction where
  | North
  | East
  | South
  | West
deriving DecidableEq, Repr

namespace Direction

/-- `Direction::idx`. -/
def idx : Direction → Nat
  | .North => 0
  | .East => 1
  | .South => 2
  | .West => 3

/-- `Direction::left`. -/
def left : Direction → Direction
  | .North => .West
  | .East => .North
  | .South => .East
  | .West => .South

/-- `Direction::right`. -/
def right : Direction → Direction
  | .North => .East
  | .East => .South
  | .South => .West
  | .West => .North

end Direction

/-- `struct Location(usize, usize)`: row (`x`) and column (`y`). -/
structure Location where
  x : Nat
  y : Nat
deriving DecidableEq, Repr

/-- `usize::abs_diff`. -/
def absDiff (a b : Nat) : Nat := if a ≤ b then b - a else a - b

/-- `Location::manhattan_dist`. -/
def Location.manhattan_dist (a b : Location) : Nat :=
  absDiff a.x b.x + absDiff a.y b.y

/-- `struct Map(Grid<usize>)`. -/
structure Map where
  grid : List (List Nat)
deriving DecidableEq, Repr

namespace Map

/-- `Map::get`, made partial: `none` is the out-of-bounds panic of the
Rust unchecked indexing `self.0[location.0][location.1]`. -/
def get? (m : Map) (l : Location) : Option Nat :=
  (m.grid.get? l.x).bind fun row => row.get? l.y

/-- `Map::get_location`. -/
def get_location (m : Map) (x y : Nat) : Option Location :=
  (m.grid.get? x).bind fun row => (row.get? y).map fun _ => Location.mk x y

/-- `Map::bottom_right`.  (Rust indexes the last row without a check; on the
empty grid the subtraction is truncated here where Rust would panic — the
callers below only reach it on a non-empty grid.) -/
def bottom_right (m : Map) : Location :=
  Location.mk (m.grid.length - 1) ((m.grid.getD (m.grid.length - 1) []).length - 1)

/-- `Map::go_direction`. -/
def go_direction (m : Map) (current : Location) (direction : Direction) :
    Option Location :=
  match direction with
  | .North =>
    if current.x ≠ 0 then some (Location.mk (current.x - 1) current.y) else none
  | .East => m.get_location current.x (current.y + 1)
  | .South => m.get_location (current.x + 1) current.y
  | .West =>
    if current.y ≠ 0 then some (Location.mk current.x (current.y - 1)) else none

end Map

/-- One dominance table: `Grid<[Option<usize>; 4]>` (the innermost list
always has length 4, indexed by `Direction.idx`). -/
abbrev Cache := List (List (List (Option Nat)))

/-- The explicit heap of dominance tables standing in for the `Rc<RefCell<_>>`
cells; a `Movement.best` field is an index into it. -/
abbrev Store := List Cache

/-- The freshly allocated all-`None` table built by `Movement::new`. -/
def mkCache (m : Map) : Cache :=
  m.grid.map fun row => row.map fun _ => [none, none, none, none]

/-- Read one table of the store (`borrow` of the `Rc<RefCell<_>>` at `id`). -/
def storeGet (st : Store) (id : Nat) : Cache := st.getD id []

/-- Write one table of the store back. -/
def storeSet (st : Store) (id : Nat) (c : Cache) : Store := st.set id c

/-- The cache read `cache[x][y][idx]`. -/
def cacheGet (c : Cache) (l : Location) (i : Nat) : Option Nat :=
  ((c.getD l.x []).getD l.y []).getD i none

/-- The cache write `cache[x][y][idx] = Some(v)`. -/
def cacheSet (c : Cache) (l : Location) (i : Nat) (v : Nat) : Cache :=
  c.set l.x ((c.getD l.x []).set l.y
    (((c.getD l.x []).getD l.y []).set i (some v)))

/-- `struct Movement` (the `map: &'a Map` reference is carried by value; the
`best` `Rc` is the index of this state's table in the `Store`). -/
structure Movement where
  map : Map
  location : Location
  direction : Direction
  min_distance : Nat
  max_distance : Nat
  current_distance : Nat
  total_cost : Nat
  best : Nat
deriving DecidableEq, Repr

namespace Movement

/-- `Movement::new`: the fresh state at `location` plus the store extended by
the newly allocated all-`None` table. -/
def new (map : Map) (location : Location) (direction : Direction)
    (min_distance max_distance : Nat) (store : Store) : Movement × Store :=
  (⟨map, location, direction, min_distance, max_distance, 0, 0, store.length⟩,
    store ++ [mkCache map])

/-- `Movement::weight`. -/
def weight (s : Movement) : Nat :=
  s.total_cost + s.location.manhattan_dist s.map.bottom_right

/-- `impl Ord for Movement`: compare the `f = g + h` weights (both against
`self`'s map, as the Rust does) and reverse. -/
def cmp (s t : Movement) : Ordering :=
  let target := s.map.bottom_right
  let my_weight := s.total_cost + s.location.manhattan_dist target
  let other_weight := t.total_cost + t.location.manhattan_dist target
  (compare my_weight other_weight).swap

/-- `Movement::test_path`.  Result `none` is a Rust panic (out-of-bounds grid
read); `some (none, st)` is the Rust `None` (off-grid step or dominated);
`some (some t, st)` is a produced turn successor together with the store
after the cache update. -/
def test_path (s : Movement) (store : Store) (new_direction : Direction) :
    Option (Option Movement × Store) :=
  match s.map.go_direction s.location new_direction with
  | none => some (none, store)
  | some new_loc =>
    match s.map.get? new_loc with
    | none => none
    | some cost =>
      let total_cost := s.total_cost + cost
      let cache := storeGet store s.best
      let succ : Movement :=
        { s with
          location := new_loc
          direction := new_direction
          current_distance := 1
          total_cost := total_cost }
      match cacheGet cache new_loc new_direction.idx with
      | some lowest_cost =>
        if total_cost < lowest_cost then
          some (some succ,
            storeSet store s.best (cacheSet cache new_loc new_direction.idx total_cost))
        else
          some (none, store)
      | none =>
        some (some succ,
          storeSet store s.best (cacheSet cache new_loc new_direction.idx total_cost))

/-- The trailing `if self.current_distance < self.max_distance` block of
`Movement::available_paths` (the Continue successor), appended to the turn
successors already in `out`.  Result `none` is a Rust panic. -/
def continueStep (s : Movement) (out : List Movement) (st : Store) :
    Option (List Movement × Store) :=
  if s.current_distance < s.max_distance then
    match s.map.go_direction s.location s.direction with
    | some next_loc =>
      match s.map.get? next_loc with
      | none => none
      | some cost =>
        some (out ++
          [{ s with
              location := next_loc
              current_distance := s.current_distance + 1
              total_cost := s.total_cost + cost }], st)
    | none => some (out, st)
  else some (out, st)

/-- `Movement::available_paths`: left turn, right turn (both through
`test_path`, threading the store), then the Continue successor. -/
def available_paths (s : Movement) (store : Store) :
    Option (List Movement × Store) :=
  if s.min_distance ≤ s.current_distance then
    match s.test_path store s.direction.left with
    | none => none
    | some (o1, store1) =>
      match s.test_path store1 s.direction.right with
      | none => none
      | some (o2, store2) => s.continueStep (o1.toList ++ o2.toList) store2
  else
    s.continueStep [] store

end Movement

/-- The result of one `seek_end` run.  `err` is the `anyhow` error path
(`Result::Err`), `crash` an out-of-bounds grid read that panics in Rust,
`done` the `Ok` result (`Some cost` or the no-path `None`), and `fuelOut`
only marks insufficient fuel of the embedding. -/
inductive Outcome where
  | err (msg : String)
  | crash
  | fuelOut
  | done (result : Option Nat)
deriving DecidableEq, Repr

/-- `popBest` realises the `BinaryHeap` contract of `to_visit.pop()`: it
removes a maximal element under `Movement.cmp` (ties resolved to the earliest
element, one deterministic choice among those Rust leaves unspecified). -/
def popBest : List Movement → Option (Movement × List Movement)
  | [] => none
  | m :: rest =>
    match popBest rest with
    | none => some (m, [])
    | some (b, rem) =>
      if Movement.cmp m b = .lt then some (b, m :: rem)
      else some (m, rest)

/-- The per-successor body of the `for next_node in node.available_paths()`
loop: record a terminal successor as the running best (strictly better
cost wins; ties keep the old). -/
def updateBest (target : Location) (minD : Nat) :
    Option Movement → List Movement → Option Movement
  | best, [] => best
  | best, t :: rest =>
    let best' :=
      if t.location = target ∧ minD ≤ t.current_distance then
        match best with
        | some b => if t.total_cost < b.total_cost then some t else some b
        | none => some t
      else best
    updateBest target minD best' rest

/-- The `while !to_visit.is_empty()` loop of `seek_end`, on fuel: pop the
best state, expand it, record terminal successors, push all successors. -/
def loop (minD : Nat) (target : Location) :
    Nat → List Movement → Store → Option Movement → Outcome
  | 0, _, _, _ => .fuelOut
  | fuel + 1, frontier, store, best =>
    match popBest frontier with
    | none => .done (best.map Movement.total_cost)
    | some (node, rest) =>
      match node.available_paths store with
      | none => .crash
      | some (nexts, store') =>
        loop minD target fuel (rest ++ nexts) store'
          (updateBest target minD best nexts)

/-- `char::to_digit(10)`. -/
def toDigit10 (c : Char) : Option Nat :=
  if '0' ≤ c ∧ c ≤ '9' then some (c.toNat - '0'.toNat) else none

/-- The inner loop of `parse_input` over one line's characters. -/
def parseLine : List Char → Except String (List Nat)
  | [] => .ok []
  | c :: rest =>
    match toDigit10 c with
    | none => .error "Failed to parse input digit"
    | some d =>
      match parseLine rest with
      | .error e => .error e
      | .ok ds => .ok (d :: ds)

/-- `parse_input`, taking the input already split into lines (the line
splitting belongs to the out-of-scope file-reading collaborator). -/
def parse_input : List (List Char) → Except String Map
  | [] => .ok (Map.mk [])
  | line :: rest =>
    match parseLine line with
    | .error e => .error e
    | .ok row =>
      match parse_input rest with
      | .error e => .error e
      | .ok m => .ok (Map.mk (row :: m.grid))

/-- The two seed states of `seek_end`: `Movement::new` is called twice, each
call allocating its own fresh dominance table. -/
def mkSeeds (map : Map) (origin : Location) (minD maxD : Nat) :
    List Movement × Store :=
  let (m1, store1) := Movement.new map origin .East minD maxD []
  let (m2, store2) := Movement.new map origin .South minD maxD store1
  ([m1, m2], store2)

/-- `seek_end` on explicit fuel: parse, look up the origin, seed the
frontier, look up the target, drain the frontier. -/
def seekEnd (fuel : Nat) (input : List (List Char)) (minD maxD : Nat) :
    Outcome :=
  match parse_input input with
  | .error _ => .err "Failed to parse input"
  | .ok map =>
    match map.get_location 0 0 with
    | none => .err "Expected to find (0,0)"
    | some origin =>
      let (seeds, store) := mkSeeds map origin minD maxD
      match map.get_location (map.grid.length - 1)
          ((map.grid.getD (map.grid.length - 1) []).length - 1) with
      | none => .err "Expected to find bottom right"
      | some target => loop minD target fuel seeds store none


/-! ### Generic stepping lemmas for the driving loop -/

/-- One iteration of the driving loop: pop the best state, expand it, record
terminal successors, push the rest. -/
theorem loop_cons {minD : Nat} {target : Location} {frontier rest nexts : List Movement}
    {node : Movement} {store store' : Store} (fuel : Nat) (best : Option Movement)
    (hpop : popBest frontier = some (node, rest))
    (hav : node.available_paths store = some (nexts, store')) :
    loop minD target (fuel + 1) frontier store best =
      loop minD target fuel (rest ++ nexts) store'
        (updateBest target minD best nexts) := by
  simp only [loop, hpop, hav]

/-- The loop returns the recorded best cost once the frontier is empty. -/
theorem loop_done {minD : Nat} {target : Location} {store : Store} (fuel : Nat)
    (best : Option Movement) :
    loop minD target (fuel + 1) [] store best =
      .done (best.map Movement.total_cost) := by
  unfold loop
  rfl

/-- Expanding a state whose left turn, right turn and straight step all leave
the grid yields no successors and leaves the store untouched (whatever the
run-length constraints are). -/
theorem available_paths_dead_end (s : Movement) (st : Store)
    (hl : s.map.go_direction s.location s.direction.left = none)
    (hr : s.map.go_direction s.location s.direction.right = none)
    (hc : s.map.go_direction s.location s.direction = none) :
    s.available_paths st = some ([], st) := by
  simp only [Movement.available_paths, Movement.test_path, Movement.continueStep,
    hl, hr, hc, Option.toList, List.nil_append, ite_self]

/-- Expanding a state that may not turn and whose straight step leaves the
grid yields no successors. -/
theorem available_paths_stuck (s : Movement) (st : Store)
    (hmin : ¬ (s.min_distance ≤ s.current_distance))
    (hc : s.map.go_direction s.location s.direction = none) :
    s.available_paths st = some ([], st) := by
  simp only [Movement.available_paths, Movement.continueStep, if_neg hmin, hc,
    ite_self]

/-- Expanding a state that may not turn but may still move straight yields
exactly the Continue successor, with no cache access. -/
theorem available_paths_straight (s : Movement) (st : Store) (l' : Location)
    (c : Nat) (hmin : ¬ (s.min_distance ≤ s.current_distance))
    (hcd : s.current_distance < s.max_distance)
    (hc : s.map.go_direction s.location s.direction = some l')
    (hget : s.map.get? l' = some c) :
    s.available_paths st =
      some ([{ s with
                location := l'
                current_distance := s.current_distance + 1
                total_cost := s.total_cost + c }], st) := by
  simp only [Movement.available_paths, Movement.continueStep, if_neg hmin,
    if_pos hcd, hc, hget, List.nil_append]

/-- A helper computing `seek_end` on the 1×1 grid: both seeds expand to
nothing (every step leaves the grid), so the frontier drains after two pops
and the engine reports the no-path result, for all run-length parameters. -/
theorem seekEnd_one_by_one (minD maxD : Nat) :
    seekEnd 3 [['5']] minD maxD = Outcome.done none := by
  have hp1 : popBest
      [⟨⟨[[5]]⟩, ⟨0, 0⟩, .East, minD, maxD, 0, 0, 0⟩,
        ⟨⟨[[5]]⟩, ⟨0, 0⟩, .South, minD, maxD, 0, 0, 1⟩] =
      some (⟨⟨[[5]]⟩, ⟨0, 0⟩, .East, minD, maxD, 0, 0, 0⟩,
        [⟨⟨[[5]]⟩, ⟨0, 0⟩, .South, minD, maxD, 0, 0, 1⟩]) := rfl
  have hp2 : popBest [(⟨⟨[[5]]⟩, ⟨0, 0⟩, .South, minD, maxD, 0, 0, 1⟩ : Movement)] =
      some (⟨⟨[[5]]⟩, ⟨0, 0⟩, .South, minD, maxD, 0, 0, 1⟩, []) := rfl
  have h1 : Movement.available_paths
      ⟨⟨[[5]]⟩, ⟨0, 0⟩, .East, minD, maxD, 0, 0, 0⟩
      [mkCache ⟨[[5]]⟩, mkCache ⟨[[5]]⟩] =
      some ([], [mkCache ⟨[[5]]⟩, mkCache ⟨[[5]]⟩]) :=
    available_paths_dead_end _ _ rfl rfl rfl
  have h2 : Movement.available_paths
      ⟨⟨[[5]]⟩, ⟨0, 0⟩, .South, minD, maxD, 0, 0, 1⟩
      [mkCache ⟨[[5]]⟩, mkCache ⟨[[5]]⟩] =
      some ([], [mkCache ⟨[[5]]⟩, mkCache ⟨[[5]]⟩]) :=
    available_paths_dead_end _ _ rfl rfl rfl
  show loop minD (Location.mk 0 0) 3
      [⟨⟨[[5]]⟩, ⟨0, 0⟩, .East, minD, maxD, 0, 0, 0⟩,
        ⟨⟨[[5]]⟩, ⟨0, 0⟩, .South, minD, maxD, 0, 0, 1⟩]
      [mkCache ⟨[[5]]⟩, mkCache ⟨[[5]]⟩] none = Outcome.done none
  rw [loop_cons 2 none hp1 h1]
  simp only [List.append_nil, updateBest]
  rw [loop_cons 1 _ hp2 h2]
  simp only [List.append_nil, updateBest]
  rw [loop_done 0 _]
  rfl

/-- C6: on a 1×1 grid with `min_run ≥ 1` (and any `max_run ≥ min_run`) every
transition of either seed steps off the grid, so the engine exhausts the
frontier without ever reaching a terminal state (terminality needs
`location = destination` and `run_length ≥ min_run`, and the seeds' run
length 0 can never grow) and returns the no-path outcome `Ok(None)` — an
ordinary typed result, not an error. -/
theorem seekEnd_one_by_one_min_pos (minD maxD : Nat) (h1 : 1 ≤ minD)
    (h2 : minD ≤ maxD) : seekEnd 3 [['5']] minD maxD = Outcome.done none :=
  seekEnd_one_by_one minD maxD

theorem seekEnd_one_by_one_min_pos_witness :
    1 ≤ 1 ∧ 1 ≤ 1 ∧ seekEnd 3 [['5']] 1 1 = Outcome.done none :=
  ⟨le_refl 1, le_refl 1,
    seekEnd_one_by_one_min_pos 1 1 (le_refl 1) (le_refl 1)⟩

/-- C10: the terminal test of `seek_end` is applied only to successor states
inside the expansion loop, never to a popped state, so on the 1×1 grid —
where the origin *is* the destination (`bottom_right`) and the seed's run
length 0 already satisfies `min_run = 0` — the engine still returns
`Ok(None)` rather than a minimum cost of 0, for every `max_run`. -/
theorem seekEnd_one_by_one_min_zero (maxD : Nat) :
    (Map.mk [[5]]).bottom_right = Location.mk 0 0 ∧
      seekEnd 3 [['5']] 0 maxD = Outcome.done none :=
  ⟨rfl, seekEnd_one_by_one 0 maxD⟩

/-- Expanding a state that may not turn and may not move further straight
(`run_length = max_run`) yields no successors. -/
theorem available_paths_noturn_nomove (s : Movement) (st : Store)
    (hmin : ¬ (s.min_distance ≤ s.current_distance))
    (hmx : ¬ (s.current_distance < s.max_distance)) :
    s.available_paths st = some ([], st) := by
  simp only [Movement.available_paths, Movement.continueStep, if_neg hmin,
    if_neg hmx]

/-- C3 counterexample: a query with `min_run = 2 > 1 = max_run` is **not**
rejected: `seek_end` seeds the frontier, runs the search to exhaustion and
returns the ordinary no-path result `Ok(None)` — no `InvalidParameter`
error exists in the code. -/
theorem seekEnd_min_gt_max_cex :
    (1 : Nat) < 2 ∧ seekEnd 4 [['1', '1']] 2 1 = Outcome.done none := by
  exact ⟨by decide, by decide⟩

/-- C3 amended: `min_run > max_run` is not validated anywhere; the search
simply runs (turning is impossible, since `run_length ≤ max_run < min_run`)
and returns an ordinary result.  On the 1×2 all-ones grid the result is the
no-path outcome, for every such parameter pair. -/
theorem seekEnd_min_gt_max_runs (minD maxD : Nat) (h : maxD < minD) :
    seekEnd 4 [['1', '1']] minD maxD = Outcome.done none := by
  have hmin0 : ¬ (minD ≤ 0) := by omega
  show loop minD (Location.mk 0 1) 4
      [⟨⟨[[1, 1]]⟩, ⟨0, 0⟩, .East, minD, maxD, 0, 0, 0⟩,
        ⟨⟨[[1, 1]]⟩, ⟨0, 0⟩, .South, minD, maxD, 0, 0, 1⟩]
      [mkCache ⟨[[1, 1]]⟩, mkCache ⟨[[1, 1]]⟩] none = Outcome.done none
  cases maxD with
  | zero =>
    have hp1 : popBest
        [⟨⟨[[1, 1]]⟩, ⟨0, 0⟩, .East, minD, 0, 0, 0, 0⟩,
          ⟨⟨[[1, 1]]⟩, ⟨0, 0⟩, .South, minD, 0, 0, 0, 1⟩] =
        some (⟨⟨[[1, 1]]⟩, ⟨0, 0⟩, .East, minD, 0, 0, 0, 0⟩,
          [⟨⟨[[1, 1]]⟩, ⟨0, 0⟩, .South, minD, 0, 0, 0, 1⟩]) := rfl
    have hp2 : popBest [(⟨⟨[[1, 1]]⟩, ⟨0, 0⟩, .South, minD, 0, 0, 0, 1⟩ : Movement)] =
        some (⟨⟨[[1, 1]]⟩, ⟨0, 0⟩, .South, minD, 0, 0, 0, 1⟩, []) := rfl
    have ha1 : Movement.available_paths
        ⟨⟨[[1, 1]]⟩, ⟨0, 0⟩, .East, minD, 0, 0, 0, 0⟩
        [mkCache ⟨[[1, 1]]⟩, mkCache ⟨[[1, 1]]⟩] =
        some ([], [mkCache ⟨[[1, 1]]⟩, mkCache ⟨[[1, 1]]⟩]) :=
      available_paths_noturn_nomove _ _ hmin0 (Nat.lt_irrefl 0)
    have ha2 : Movement.available_paths
        ⟨⟨[[1, 1]]⟩, ⟨0, 0⟩, .South, minD, 0, 0, 0, 1⟩
        [mkCache ⟨[[1, 1]]⟩, mkCache ⟨[[1, 1]]⟩] =
        some ([], [mkCache ⟨[[1, 1]]⟩, mkCache ⟨[[1, 1]]⟩]) :=
      available_paths_stuck _ _ hmin0 rfl
    rw [loop_cons 3 none hp1 ha1]
    simp only [List.append_nil, updateBest]
    rw [loop_cons 2 _ hp2 ha2]
    simp only [List.append_nil, updateBest]
    rw [loop_done 1 _]
    rfl
  | succ b =>
    have hmin1 : ¬ (minD ≤ 1) := by omega
    have hp1 : popBest
        [⟨⟨[[1, 1]]⟩, ⟨0, 0⟩, .East, minD, b + 1, 0, 0, 0⟩,
          ⟨⟨[[1, 1]]⟩, ⟨0, 0⟩, .South, minD, b + 1, 0, 0, 1⟩] =
        some (⟨⟨[[1, 1]]⟩, ⟨0, 0⟩, .East, minD, b + 1, 0, 0, 0⟩,
          [⟨⟨[[1, 1]]⟩, ⟨0, 0⟩, .South, minD, b + 1, 0, 0, 1⟩]) := rfl
    have ha1 : Movement.available_paths
        ⟨⟨[[1, 1]]⟩, ⟨0, 0⟩, .East, minD, b + 1, 0, 0, 0⟩
        [mkCache ⟨[[1, 1]]⟩, mkCache ⟨[[1, 1]]⟩] =
        some ([⟨⟨[[1, 1]]⟩, ⟨0, 1⟩, .East, minD, b + 1, 1, 1, 0⟩],
          [mkCache ⟨[[1, 1]]⟩, mkCache ⟨[[1, 1]]⟩]) :=
      available_paths_straight _ _ (Location.mk 0 1) 1 hmin0 (Nat.succ_pos b) rfl rfl
    have hp2 : popBest
        [⟨⟨[[1, 1]]⟩, ⟨0, 0⟩, .South, minD, b + 1, 0, 0, 1⟩,
          ⟨⟨[[1, 1]]⟩, ⟨0, 1⟩, .East, minD, b + 1, 1, 1, 0⟩] =
        some (⟨⟨[[1, 1]]⟩, ⟨0, 0⟩, .South, minD, b + 1, 0, 0, 1⟩,
          [⟨⟨[[1, 1]]⟩, ⟨0, 1⟩, .East, minD, b + 1, 1, 1, 0⟩]) := rfl
    have ha2 : Movement.available_paths
        ⟨⟨[[1, 1]]⟩, ⟨0, 0⟩, .South, minD, b + 1, 0, 0, 1⟩
        [mkCache ⟨[[1, 1]]⟩, mkCache ⟨[[1, 1]]⟩] =
        some ([], [mkCache ⟨[[1, 1]]⟩, mkCache ⟨[[1, 1]]⟩]) :=
      available_paths_stuck _ _ hmin0 rfl
    have hp3 : popBest [(⟨⟨[[1, 1]]⟩, ⟨0, 1⟩, .East, minD, b + 1, 1, 1, 0⟩ : Movement)] =
        some (⟨⟨[[1, 1]]⟩, ⟨0, 1⟩, .East, minD, b + 1, 1, 1, 0⟩, []) := rfl
    have ha3 : Movement.available_paths
        ⟨⟨[[1, 1]]⟩, ⟨0, 1⟩, .East, minD, b + 1, 1, 1, 0⟩
        [mkCache ⟨[[1, 1]]⟩, mkCache ⟨[[1, 1]]⟩] =
        some ([], [mkCache ⟨[[1, 1]]⟩, mkCache ⟨[[1, 1]]⟩]) :=
      available_paths_stuck _ _ hmin1 rfl
    rw [loop_cons 3 none hp1 ha1]
    have hub : updateBest (Location.mk 0 1) minD none
        [⟨⟨[[1, 1]]⟩, ⟨0, 1⟩, .East, minD, b + 1, 1, 1, 0⟩] = none := by
      simp only [updateBest]
      rw [if_neg (fun hh => hmin1 hh.2)]
    rw [hub]
    simp only [List.cons_append, List.nil_append]
    rw [loop_cons 2 _ hp2 ha2]
    simp only [List.append_nil, List.nil_append, updateBest]
    rw [loop_cons 1 _ hp3 ha3]
    simp only [List.append_nil, updateBest]
    rw [loop_done 0 _]
    rfl

theorem seekEnd_min_gt_max_runs_witness :
    1 < 2 ∧ seekEnd 4 [['1', '1']] 2 1 = Outcome.done none :=
  ⟨Nat.lt_succ_self 1, seekEnd_min_gt_max_runs 2 1 (Nat.lt_succ_self 1)⟩

/-! ### Inversion lemmas for the transition function -/

/-- Whatever a successful `test_path` call produces inherits the parent's
map, cache reference and run-length parameters, heads in the tested
direction with run length 1, and pays exactly the destination cell's cost. -/
theorem test_path_some_inv {s : Movement} {store : Store} {d : Direction}
    {o : Option Movement} {st' : Store}
    (h : s.test_path store d = some (o, st')) :
    ∀ t, o = some t →
      t.map = s.map ∧ t.best = s.best ∧ t.min_distance = s.min_distance ∧
      t.max_distance = s.max_distance ∧ t.direction = d ∧
      t.current_distance = 1 ∧
      s.map.go_direction s.location d = some t.location ∧
      ∃ c, s.map.get? t.location = some c ∧
        t.total_cost = s.total_cost + c := by
  intro t ht
  simp only [Movement.test_path] at h
  split at h
  · simp only [Option.some.injEq, Prod.mk.injEq] at h
    rw [← h.1] at ht
    cases ht
  · rename_i new_loc hgo
    split at h
    · cases h
    · rename_i cost hget
      split at h
      · rename_i lowest hcg
        split at h
        · simp only [Option.some.injEq, Prod.mk.injEq] at h
          rw [← h.1] at ht
          cases ht
          exact ⟨rfl, rfl, rfl, rfl, rfl, rfl, hgo, cost, hget, rfl⟩
        · simp only [Option.some.injEq, Prod.mk.injEq] at h
          rw [← h.1] at ht
          cases ht
      · simp only [Option.some.injEq, Prod.mk.injEq] at h
        rw [← h.1] at ht
        cases ht
        exact ⟨rfl, rfl, rfl, rfl, rfl, rfl, hgo, cost, hget, rfl⟩

/-- A successful `continueStep` returns the store unchanged, and its output
is the incoming list, possibly extended by the single Continue successor. -/
theorem continueStep_some_inv {s : Movement} {out : List Movement} {st : Store}
    {nexts : List Movement} {st' : Store}
    (h : s.continueStep out st = some (nexts, st')) :
    st' = st ∧
      (nexts = out ∨
        ∃ l' c, s.map.go_direction s.location s.direction = some l' ∧
          s.map.get? l' = some c ∧ s.current_distance < s.max_distance ∧
          nexts = out ++
            [{ s with
                location := l'
                current_distance := s.current_distance + 1
                total_cost := s.total_cost + c }]) := by
  simp only [Movement.continueStep] at h
  split at h
  · rename_i hcd
    split at h
    · rename_i next_loc hgo
      split at h
      · cases h
      · rename_i cost hget
        simp only [Option.some.injEq, Prod.mk.injEq] at h
        exact ⟨h.2.symm, Or.inr ⟨next_loc, cost, hgo, hget, hcd, h.1.symm⟩⟩
    · simp only [Option.some.injEq, Prod.mk.injEq] at h
      exact ⟨h.2.symm, Or.inl h.1.symm⟩
  · simp only [Option.some.injEq, Prod.mk.injEq] at h
    exact ⟨h.2.symm, Or.inl h.1.symm⟩

/-- Any member of a successful `available_paths` expansion inherits the
parent's map, cache reference and run-length parameters, sits on the cell
reached by stepping from the parent in its own direction, pays that cell's
cost on top of the parent's `g`, and is either the Continue successor
(same heading, incremented run, only under `run_length < max_run`) or a
Turn successor (left or right heading, run length 1, only under
`min_run ≤ run_length`). -/
theorem available_paths_mem {s : Movement} {store : Store}
    {nexts : List Movement} {store' : Store}
    (h : s.available_paths store = some (nexts, store')) :
    ∀ t ∈ nexts, t.map = s.map ∧ t.best = s.best ∧
      t.min_distance = s.min_distance ∧ t.max_distance = s.max_distance ∧
      s.map.go_direction s.location t.direction = some t.location ∧
      (∃ c, s.map.get? t.location = some c ∧
        t.total_cost = s.total_cost + c) ∧
      ((t.direction = s.direction ∧
          t.current_distance = s.current_distance + 1 ∧
          s.current_distance < s.max_distance) ∨
        (s.min_distance ≤ s.current_distance ∧ t.current_distance = 1 ∧
          (t.direction = s.direction.left ∨
            t.direction = s.direction.right))) := by
  intro t ht
  simp only [Movement.available_paths] at h
  split at h
  · rename_i hcan
    split at h
    · cases h
    · rename_i p1 o1 store1 htp1
      split at h
      · cases h
      · rename_i p2 o2 store2 htp2
        obtain ⟨hst, hsh⟩ := continueStep_some_inv h
        have turnCase : t ∈ o1.toList ++ o2.toList →
            t.map = s.map ∧ t.best = s.best ∧
            t.min_distance = s.min_distance ∧
            t.max_distance = s.max_distance ∧
            s.map.go_direction s.location t.direction = some t.location ∧
            (∃ c, s.map.get? t.location = some c ∧
              t.total_cost = s.total_cost + c) ∧
            ((t.direction = s.direction ∧
                t.current_distance = s.current_distance + 1 ∧
                s.current_distance < s.max_distance) ∨
              (s.min_distance ≤ s.current_distance ∧
                t.current_distance = 1 ∧
                (t.direction = s.direction.left ∨
                  t.direction = s.direction.right))) := by
          intro hmem
          rcases List.mem_append.1 hmem with h1 | h2
          · have ho1 : o1 = some t := by
              cases o1 with
              | none => cases h1
              | some u =>
                simp only [Option.toList, List.mem_singleton] at h1
                rw [h1]
            obtain ⟨hm, hb, hmn, hmx, hd, hcd, hgo, c, hget, htc⟩ :=
              test_path_some_inv htp1 t ho1
            exact ⟨hm, hb, hmn, hmx, hd ▸ hgo, ⟨c, hget, htc⟩,
              Or.inr ⟨hcan, hcd, Or.inl hd⟩⟩
          · have ho2 : o2 = some t := by
              cases o2 with
              | none => cases h2
              | some u =>
                simp only [Option.toList, List.mem_singleton] at h2
                rw [h2]
            obtain ⟨hm, hb, hmn, hmx, hd, hcd, hgo, c, hget, htc⟩ :=
              test_path_some_inv htp2 t ho2
            exact ⟨hm, hb, hmn, hmx, hd ▸ hgo, ⟨c, hget, htc⟩,
              Or.inr ⟨hcan, hcd, Or.inr hd⟩⟩
        rcases hsh with rfl | ⟨l', c, hgo, hget, hcd, rfl⟩
        · exact turnCase ht
        · rcases List.mem_append.1 ht with hmem | hcont
          · exact turnCase hmem
          · rw [List.mem_singleton.1 hcont]
            exact ⟨rfl, rfl, rfl, rfl, hgo, ⟨c, hget, rfl⟩,
              Or.inl ⟨rfl, rfl, hcd⟩⟩
  · obtain ⟨hst, hsh⟩ := continueStep_some_inv h
    rcases hsh with rfl | ⟨l', c, hgo, hget, hcd, rfl⟩
    · cases ht
    · rcases List.mem_append.1 ht with hmem | hcont
      · cases hmem
      · rw [List.mem_singleton.1 hcont]
        exact ⟨rfl, rfl, rfl, rfl, hgo, ⟨c, hget, rfl⟩,
          Or.inl ⟨rfl, rfl, hcd⟩⟩

/-- The default instance search bottoms out on this product type; provide
it directly so that concrete `available_paths` results can be `decide`d. -/
instance : DecidableEq (List Movement × Store) := instDecidableEqProd

/-- When the run may continue and the straight step stays on the grid,
`continueStep` appends exactly the Continue successor, without reading or
writing any cache. -/
theorem continueStep_eq {s : Movement} {l' : Location} {c : Nat}
    (out : List Movement) (st : Store)
    (hcd : s.current_distance < s.max_distance)
    (hgo : s.map.go_direction s.location s.direction = some l')
    (hget : s.map.get? l' = some c) :
    s.continueStep out st =
      some (out ++
        [{ s with
            location := l'
            current_distance := s.current_distance + 1
            total_cost := s.total_cost + c }], st) := by
  simp only [Movement.continueStep, if_pos hcd, hgo, hget]

/-- Example grid for the cache-discipline counterexamples: a 1×3 strip of
ones. -/
def exMap13 : Map := ⟨[[1, 1, 1]]⟩

/-- A dominance table for `exMap13` that already records cost 0 for
arriving at cell (0,1) heading East. -/
def exCache13 : Cache :=
  [[[none, none, none, none], [none, some 0, none, none],
    [none, none, none, none]]]

/-- A mid-run state on `exMap13`: at the origin heading East with run
length 1, `min_run` 5 (so it cannot turn) and `max_run` 3. -/
def exRun1 : Movement := ⟨exMap13, ⟨0, 0⟩, .East, 5, 3, 1, 0, 0⟩

/-- C1 counterexample: the dominance table already holds cost 0 for the key
((0,1), East) and the Continue successor's `g = 1` is *not* strictly lower,
yet `available_paths` still pushes that successor (and leaves the table
untouched): the Continue successor is never checked against the
DominanceCache — only Turn successors are. -/
theorem continue_bypasses_cache_cex :
    cacheGet exCache13 (Location.mk 0 1) Direction.East.idx = some 0 ∧
    ¬ ((1 : Nat) < 0) ∧
    Movement.available_paths exRun1 [exCache13] =
      some ([⟨exMap13, ⟨0, 1⟩, .East, 5, 3, 2, 1, 0⟩], [exCache13]) := by
  exact ⟨by decide, by decide, by decide⟩

/-- C1 amended: only the two Turn successors go through the dominance
cache — `test_path` discards a turn whose `g` is not strictly lower than
the cached value (leaving the store unchanged) and otherwise records the
new `g` and produces the turn — while the Continue successor is pushed
without any cache consultation whenever the run may continue and stays
on the grid, and an expansion that attempts no turn never touches the
store at all. -/
theorem cache_checked_only_for_turns (s : Movement) (store : Store) :
    (∀ d l' c w, s.map.go_direction s.location d = some l' →
      s.map.get? l' = some c →
      cacheGet (storeGet store s.best) l' d.idx = some w →
      ¬ (s.total_cost + c < w) →
      s.test_path store d = some (none, store)) ∧
    (∀ d l' c, s.map.go_direction s.location d = some l' →
      s.map.get? l' = some c →
      (∀ w, cacheGet (storeGet store s.best) l' d.idx = some w →
        s.total_cost + c < w) →
      s.test_path store d =
        some (some { s with
            location := l'
            direction := d
            current_distance := 1
            total_cost := s.total_cost + c },
          storeSet store s.best
            (cacheSet (storeGet store s.best) l' d.idx
              (s.total_cost + c)))) ∧
    (∀ l' c nexts store', s.current_distance < s.max_distance →
      s.map.go_direction s.location s.direction = some l' →
      s.map.get? l' = some c →
      s.available_paths store = some (nexts, store') →
      { s with
          location := l'
          current_distance := s.current_distance + 1
          total_cost := s.total_cost + c } ∈ nexts) ∧
    (¬ (s.min_distance ≤ s.current_distance) →
      ∀ nexts store', s.available_paths store = some (nexts, store') →
      store' = store) := by
  refine ⟨?_, ?_, ?_, ?_⟩
  · intro d l' c w hgo hget hcg hnlt
    simp only [Movement.test_path, hgo, hget, hcg, if_neg hnlt]
  · intro d l' c hgo hget hok
    simp only [Movement.test_path, hgo, hget]
    cases hcg : cacheGet (storeGet store s.best) l' d.idx with
    | some w => simp only [if_pos (hok w hcg)]
    | none => rfl
  · intro l' c nexts store' hcd hgo hget hav
    simp only [Movement.available_paths] at hav
    split at hav
    · split at hav
      · cases hav
      · rename_i p1 o1 store1 htp1
        split at hav
        · cases hav
        · rename_i p2 o2 store2 htp2
          rw [continueStep_eq _ _ hcd hgo hget] at hav
          simp only [Option.some.injEq, Prod.mk.injEq] at hav
          rw [← hav.1]
          exact List.mem_append_right _ (List.mem_singleton.2 rfl)
    · rw [continueStep_eq _ _ hcd hgo hget] at hav
      simp only [Option.some.injEq, Prod.mk.injEq] at hav
      rw [← hav.1]
      exact List.mem_append_right _ (List.mem_singleton.2 rfl)
  · intro hncan nexts store' hav
    simp only [Movement.available_paths] at hav
    split at hav
    · rename_i hcan
      exact absurd hcan hncan
    · exact (continueStep_some_inv hav).1

theorem cache_checked_only_for_turns_witness :
    exRun1.current_distance < exRun1.max_distance ∧
    exMap13.go_direction exRun1.location exRun1.direction =
      some (Location.mk 0 1) ∧
    (⟨exMap13, ⟨0, 1⟩, .East, 5, 3, 2, 1, 0⟩ : Movement) ∈
      [(⟨exMap13, ⟨0, 1⟩, .East, 5, 3, 2, 1, 0⟩ : Movement)] :=
  ⟨by decide, rfl,
    (cache_checked_only_for_turns exRun1 [exCache13]).2.2.1
      (Location.mk 0 1) 1 [⟨exMap13, ⟨0, 1⟩, .East, 5, 3, 2, 1, 0⟩]
      [exCache13] (by decide) rfl rfl (by decide)⟩

/-- Example grid shared by the seed/turn counterexamples: a 2×2 square of
ones. -/
def exMap22 : Map := ⟨[[1, 1], [1, 1]]⟩

/-- C2 counterexample: a seed-shaped state (run length 0, `g = 0`) heading
East with `min_run = 1` on the 2×2 grid.  Its right turn (South) stays on
the grid, so under the claim it should be produced; but the code's guard is
`current_distance >= min_distance`, i.e. `0 ≥ 1`, so the expansion contains
only the Continue successor heading East — no turn is permitted at
`r = 0` when `min_run > 0`. -/
theorem turn_at_seed_cex :
    exMap22.go_direction (Location.mk 0 0) Direction.East.right =
      some (Location.mk 1 0) ∧
    (Movement.available_paths ⟨exMap22, ⟨0, 0⟩, .East, 1, 3, 0, 0, 0⟩
        [mkCache exMap22, mkCache exMap22]).map
      (fun p => p.1.map Movement.direction) = some [Direction.East] := by
  exact ⟨by decide, by decide⟩

/-- C2 amended: a Turn transition is permitted exactly when
`run_length ≥ min_run` — there is no `r == 0` seed exception.  Left part:
every successor that changes heading required `min_run ≤ run_length`,
has run length 1, turned left or right, stepped onto the grid and paid the
destination cell.  Right part: conversely, when `min_run ≤ run_length`
holds and the left turn steps onto the grid and is not dominated by the
cache, a left-turn successor with run length 1 and `g' = g + cost` is
produced. -/
theorem turn_permitted_iff_min_run (s : Movement) (store : Store) :
    (∀ nexts store', s.available_paths store = some (nexts, store') →
      ∀ t ∈ nexts, t.direction ≠ s.direction →
        s.min_distance ≤ s.current_distance ∧
        t.current_distance = 1 ∧
        (t.direction = s.direction.left ∨ t.direction = s.direction.right) ∧
        s.map.go_direction s.location t.direction = some t.location ∧
        ∃ c, s.map.get? t.location = some c ∧
          t.total_cost = s.total_cost + c) ∧
    (s.min_distance ≤ s.current_distance →
      ∀ l' c, s.map.go_direction s.location s.direction.left = some l' →
        s.map.get? l' = some c →
        (∀ w, cacheGet (storeGet store s.best) l' s.direction.left.idx =
          some w → s.total_cost + c < w) →
        ∀ nexts store', s.available_paths store = some (nexts, store') →
          ∃ t, t ∈ nexts ∧ t.direction = s.direction.left ∧
            t.location = l' ∧ t.current_distance = 1 ∧
            t.total_cost = s.total_cost + c) := by
  constructor
  · intro nexts store' hav t ht hne
    obtain ⟨_, _, _, _, hgo, hc, hdisj⟩ := available_paths_mem hav t ht
    rcases hdisj with ⟨hdir, _⟩ | ⟨hcan, hcd, hlr⟩
    · exact absurd hdir hne
    · exact ⟨hcan, hcd, hlr, hgo, hc⟩
  · intro hcan l' c hgo hget hok nexts store' hav
    have htp : s.test_path store s.direction.left =
        some (some { s with
            location := l'
            direction := s.direction.left
            current_distance := 1
            total_cost := s.total_cost + c },
          storeSet store s.best
            (cacheSet (storeGet store s.best) l' s.direction.left.idx
              (s.total_cost + c))) := by
      simp only [Movement.test_path, hgo, hget]
      cases hcg : cacheGet (storeGet store s.best) l' s.direction.left.idx with
      | some w => simp only [if_pos (hok w hcg)]
      | none => rfl
    simp only [Movement.available_paths, if_pos hcan] at hav
    split at hav
    · rename_i heq
      rw [htp] at heq
      cases heq
    · rename_i p1 o1 store1 htp1
      rw [htp] at htp1
      simp only [Option.some.injEq, Prod.mk.injEq] at htp1
      split at hav
      · cases hav
      · rename_i p2 o2 store2 htp2
        obtain ⟨hst, hsh⟩ := continueStep_some_inv hav
        refine ⟨{ s with
            location := l'
            direction := s.direction.left
            current_distance := 1
            total_cost := s.total_cost + c }, ?_, rfl, rfl, rfl, rfl⟩
        have hmem : { s with
            location := l'
            direction := s.direction.left
            current_distance := 1
            total_cost := s.total_cost + c } ∈ o1.toList ++ o2.toList := by
          apply List.mem_append_left
          rw [← htp1.1]
          exact List.mem_singleton.2 rfl
        rcases hsh with rfl | ⟨l'', c', _, _, _, rfl⟩
        · exact hmem
        · exact List.mem_append_left _ hmem

theorem turn_permitted_iff_min_run_witness :
    (0 : Nat) ≤ 0 ∧
    ∃ t, t ∈ [(⟨exMap22, ⟨0, 1⟩, .East, 0, 3, 1, 1, 0⟩ : Movement),
        ⟨exMap22, ⟨1, 0⟩, .South, 0, 3, 1, 1, 0⟩] ∧
      t.direction = Direction.South.left ∧ t.location = Location.mk 0 1 ∧
      t.current_distance = 1 ∧ t.total_cost = 0 + 1 :=
  ⟨le_refl 0,
    (turn_permitted_iff_min_run ⟨exMap22, ⟨0, 0⟩, .South, 0, 3, 0, 0, 0⟩
        [mkCache exMap22, mkCache exMap22]).2 (le_refl 0)
      (Location.mk 0 1) 1 rfl rfl
      (fun w hw => Option.noConfusion hw)
      [⟨exMap22, ⟨0, 1⟩, .East, 0, 3, 1, 1, 0⟩,
        ⟨exMap22, ⟨1, 0⟩, .South, 0, 3, 1, 1, 0⟩]
      [[[[none, none, none, none], [none, some 1, none, none]],
        [[none, none, none, none], [none, none, none, none]]],
        mkCache exMap22] (by decide)⟩

/-- C4 counterexample: `seek_end` calls `Movement::new` once per seed, and
each call allocates its *own* fresh dominance table (`Rc::new`), so the two
seeds hold distinct table references (indices 0 and 1).  Expanding the East
seed updates table 0 and provably leaves table 1 untouched: the in-flight
states do not all share one single best-cost table. -/
theorem seeds_have_distinct_tables_cex :
    ((mkSeeds exMap22 (Location.mk 0 0) 0 3).1.map Movement.best) = [0, 1] ∧
    (0 : Nat) ≠ 1 ∧
    (Movement.available_paths ⟨exMap22, ⟨0, 0⟩, .East, 0, 3, 0, 0, 0⟩
        (mkSeeds exMap22 (Location.mk 0 0) 0 3).2).map
      (fun p => storeGet p.2 1) = some (mkCache exMap22) ∧
    (Movement.available_paths ⟨exMap22, ⟨0, 0⟩, .East, 0, 3, 0, 0, 0⟩
        (mkSeeds exMap22 (Location.mk 0 0) 0 3).2).map
      (fun p => storeGet p.2 0) ≠ some (mkCache exMap22) := by
  exact ⟨by decide, by decide, by decide, by decide⟩

/-- C4 amended: the best-cost table is shared per *lineage*, not globally:
the two seeds allocate two distinct tables (indices 0 and 1), and every
successor produced by `available_paths` carries exactly its parent's table
reference (the `Rc` clone), so all states generated from one seed share
that seed's table while the two seed lineages use two different tables. -/
theorem cache_per_lineage :
    (∀ (map : Map) (origin : Location) (minD maxD : Nat),
      ((mkSeeds map origin minD maxD).1.map Movement.best) = [0, 1]) ∧
    (∀ (s : Movement) (store : Store) (nexts : List Movement)
      (store' : Store), s.available_paths store = some (nexts, store') →
      ∀ t ∈ nexts, t.best = s.best) := by
  constructor
  · intro map origin minD maxD
    rfl
  · intro s store nexts store' hav t ht
    exact (available_paths_mem hav t ht).2.1

theorem cache_per_lineage_witness :
    ((mkSeeds exMap22 (Location.mk 0 0) 2 5).1.map Movement.best) = [0, 1] ∧
    (⟨exMap22, ⟨1, 0⟩, .South, 0, 3, 1, 1, 0⟩ : Movement).best =
      (⟨exMap22, ⟨0, 0⟩, .East, 0, 3, 0, 0, 0⟩ : Movement).best :=
  ⟨cache_per_lineage.1 exMap22 (Location.mk 0 0) 2 5,
    cache_per_lineage.2 ⟨exMap22, ⟨0, 0⟩, .East, 0, 3, 0, 0, 0⟩
      [mkCache exMap22, mkCache exMap22]
      [⟨exMap22, ⟨1, 0⟩, .South, 0, 3, 1, 1, 0⟩,
        ⟨exMap22, ⟨0, 1⟩, .East, 0, 3, 1, 1, 0⟩]
      [[[[none, none, none, none], [none, none, none, none]],
        [[none, none, some 1, none], [none, none, none, none]]],
        mkCache exMap22] (by decide)
      ⟨exMap22, ⟨1, 0⟩, .South, 0, 3, 1, 1, 0⟩ (by decide)⟩

/-! ### The Frontier pops a minimum-weight state (C7) -/

/-- The reversed comparator: when both states carry the same map,
`Movement.cmp s t = .lt` holds exactly when `t`'s `f = g + h` weight is
strictly below `s`'s — the `reverse()` turns the max-heap order upside
down. -/
theorem movement_cmp_lt_iff {M : Map} {s t : Movement} (hs : s.map = M)
    (ht : t.map = M) : Movement.cmp s t = .lt ↔ t.weight < s.weight := by
  subst hs
  have hw : Movement.cmp s t = (compare s.weight t.weight).swap := by
    simp only [Movement.cmp, Movement.weight, ht]
  rw [hw]
  rcases hcmp : compare s.weight t.weight with _ | _ | _
  · exact iff_of_false (by decide)
      (by have := Nat.compare_eq_lt.1 hcmp; omega)
  · exact iff_of_false (by decide)
      (by have := Nat.compare_eq_eq.1 hcmp; omega)
  · exact iff_of_true (by decide) (Nat.compare_eq_gt.1 hcmp)

/-- The defining equation of `popBest` on a non-empty list. -/
theorem popBest_cons (m : Movement) (tail : List Movement) :
    popBest (m :: tail) = match popBest tail with
      | none => some (m, [])
      | some (b, rem) =>
        if Movement.cmp m b = .lt then some (b, m :: rem)
        else some (m, tail) := rfl

/-- The popped element belongs to the frontier and the remainder is made of
frontier elements. -/
theorem popBest_mem : ∀ {l : List Movement} {p : Movement}
    {rest : List Movement}, popBest l = some (p, rest) →
    p ∈ l ∧ ∀ x ∈ rest, x ∈ l := by
  intro l
  induction l with
  | nil => intro p rest h; cases h
  | cons m tail ih =>
    intro p rest h
    simp only [popBest] at h
    split at h
    · simp only [Option.some.injEq, Prod.mk.injEq] at h
      rw [← h.1, ← h.2]
      exact ⟨List.mem_cons_self _ _, fun x hx => absurd hx (List.not_mem_nil x)⟩
    · rename_i b rem htail
      split at h
      · simp only [Option.some.injEq, Prod.mk.injEq] at h
        obtain ⟨hb, hrem⟩ := ih htail
        rw [← h.1, ← h.2]
        refine ⟨List.mem_cons_of_mem _ hb, fun x hx => ?_⟩
        rcases List.mem_cons.1 hx with rfl | hx'
        · exact List.mem_cons_self _ _
        · exact List.mem_cons_of_mem _ (hrem x hx')
      · simp only [Option.some.injEq, Prod.mk.injEq] at h
        rw [← h.1, ← h.2]
        exact ⟨List.mem_cons_self _ _, fun x hx => List.mem_cons_of_mem _ hx⟩

/-- C7: whenever the frontier is non-empty (all states referencing one map,
as in `seek_end`), `popBest` — the `BinaryHeap::pop` contract under
`Movement`'s reversed `Ord` — returns a state whose `f = g + h` weight is
minimal among all queued states: the reversed comparison turns the standard
max-heap into a min-heap over `f`. -/
theorem frontier_pops_min_weight (M : Map) (l : List Movement)
    (hM : ∀ x ∈ l, x.map = M) (hne : l ≠ []) :
    ∃ p rest, popBest l = some (p, rest) ∧ ∀ x ∈ l, p.weight ≤ x.weight := by
  induction l with
  | nil => exact absurd rfl hne
  | cons m tail ih =>
    cases tail with
    | nil =>
      refine ⟨m, [], rfl, fun x hx => ?_⟩
      rcases List.mem_cons.1 hx with rfl | hx'
      · exact le_refl _
      · cases hx'
    | cons m2 tail2 =>
      obtain ⟨b, rem, hpop, hmin⟩ :=
        ih (fun x hx => hM x (List.mem_cons_of_mem _ hx)) (by simp)
      have hmmap : m.map = M := hM m (List.mem_cons_self _ _)
      have hbmap : b.map = M := hM b
        (List.mem_cons_of_mem _ (popBest_mem hpop).1)
      by_cases hlt : Movement.cmp m b = .lt
      · have hwb : b.weight < m.weight := (movement_cmp_lt_iff hmmap hbmap).1 hlt
        refine ⟨b, m :: rem, ?_, ?_⟩
        · rw [popBest_cons, hpop]
          show (if Movement.cmp m b = Ordering.lt then some (b, m :: rem)
            else some (m, m2 :: tail2)) = some (b, m :: rem)
          rw [if_pos hlt]
        · intro x hx
          rcases List.mem_cons.1 hx with rfl | hx'
          · exact le_of_lt hwb
          · exact hmin x hx'
      · have hwm : ¬ (b.weight < m.weight) := fun hc =>
          hlt ((movement_cmp_lt_iff hmmap hbmap).2 hc)
        refine ⟨m, m2 :: tail2, ?_, ?_⟩
        · rw [popBest_cons, hpop]
          show (if Movement.cmp m b = Ordering.lt then some (b, m :: rem)
            else some (m, m2 :: tail2)) = some (m, m2 :: tail2)
          rw [if_neg hlt]
        · intro x hx
          rcases List.mem_cons.1 hx with rfl | hx'
          · exact le_refl _
          · exact le_trans (by omega) (hmin x hx')

theorem frontier_pops_min_weight_witness :
    (∀ x ∈ [(⟨exMap22, ⟨0, 0⟩, .East, 0, 3, 0, 0, 0⟩ : Movement),
        ⟨exMap22, ⟨1, 1⟩, .South, 0, 3, 2, 7, 1⟩], x.map = exMap22) ∧
    ([(⟨exMap22, ⟨0, 0⟩, .East, 0, 3, 0, 0, 0⟩ : Movement),
        ⟨exMap22, ⟨1, 1⟩, .South, 0, 3, 2, 7, 1⟩] ≠ []) ∧
    ∃ p rest, popBest
        [(⟨exMap22, ⟨0, 0⟩, .East, 0, 3, 0, 0, 0⟩ : Movement),
          ⟨exMap22, ⟨1, 1⟩, .South, 0, 3, 2, 7, 1⟩] = some (p, rest) ∧
      ∀ x ∈ [(⟨exMap22, ⟨0, 0⟩, .East, 0, 3, 0, 0, 0⟩ : Movement),
          ⟨exMap22, ⟨1, 1⟩, .South, 0, 3, 2, 7, 1⟩], p.weight ≤ x.weight :=
  ⟨by decide, by decide,
    frontier_pops_min_weight exMap22 _ (by decide) (by decide)⟩

/-! ### Parsing (C5) -/

/-- One line parses successfully exactly when every character is a decimal
digit. -/
theorem parseLine_ok_iff (l : List Char) :
    (∃ ds, parseLine l = .ok ds) ↔ ∀ c ∈ l, (toDigit10 c).isSome := by
  induction l with
  | nil => simp [parseLine]
  | cons c rest ih =>
    simp only [parseLine, List.mem_cons, forall_eq_or_imp]
    cases h : toDigit10 c with
    | none =>
      simp only [h, Option.isSome_none, Bool.false_eq_true, false_and,
        iff_false]
      intro ⟨ds, hds⟩
      cases hds
    | some d =>
      simp only [h, Option.isSome_some, true_and]
      rw [← ih]
      cases hr : parseLine rest with
      | error e => simp [hr]
      | ok ds => simp [hr]

/-- The whole grid parses successfully exactly when every character of
every line is a decimal digit — nothing else (emptiness, raggedness) is
checked. -/
theorem parse_input_ok_iff (lines : List (List Char)) :
    (∃ m, parse_input lines = .ok m) ↔
      ∀ l ∈ lines, ∀ c ∈ l, (toDigit10 c).isSome := by
  induction lines with
  | nil => simp [parse_input]
  | cons line rest ih =>
    simp only [parse_input, List.mem_cons, forall_eq_or_imp]
    cases hl : parseLine line with
    | error e =>
      have hbad : ¬ ∀ c ∈ line, (toDigit10 c).isSome := by
        rw [← parseLine_ok_iff]
        intro ⟨ds, hds⟩
        rw [hl] at hds
        cases hds
      simp only [hbad, false_and, iff_false]
      intro ⟨m, hm⟩
      cases hm
    | ok row =>
      have hline : ∀ c ∈ line, (toDigit10 c).isSome :=
        (parseLine_ok_iff line).1 ⟨row, hl⟩
      simp only [hline, true_and]
      rw [← ih]
      cases hr : parse_input rest with
      | error e => simp [hr]
      | ok m =>
        simp [hr]
        exact hline

/-- C5 counterexample: the empty input and a ragged two-line input both
*parse successfully* (no ParseError), and the ragged grid is then actually
searched, returning a cost — contrary to the claim that empty input and
ragged row lengths fail grid construction and that no such grid is ever
used for search. -/
theorem parse_accepts_empty_and_ragged_cex :
    parse_input [] = .ok (Map.mk []) ∧
    parse_input [['1', '2'], ['3']] = .ok (Map.mk [[1, 2], [3]]) ∧
    seekEnd 7 [['1', '1'], ['1']] 0 3 = Outcome.done (some 1) := by
  exact ⟨rfl, rfl, by decide⟩

/-- C5 amended: `parse_input` fails exactly on a non-digit character —
empty input parses to the empty grid and is only rejected afterwards by
`seek_end`'s origin lookup (still before any search), while ragged row
lengths are accepted outright and the ragged grid is searched. -/
theorem parse_rejects_only_non_digits :
    (∀ lines : List (List Char),
      (∃ m, parse_input lines = .ok m) ↔
        ∀ l ∈ lines, ∀ c ∈ l, (toDigit10 c).isSome) ∧
    (∀ fuel minD maxD : Nat,
      seekEnd fuel [] minD maxD = .err "Expected to find (0,0)") :=
  ⟨parse_input_ok_iff, fun _ _ _ => rfl⟩

/-! ### Safety of the search (C9) -/

/-- A location is in bounds when the unchecked grid read would succeed. -/
def inBounds (m : Map) (l : Location) : Prop := (m.get? l).isSome

/-- Every two rows of the grid have the same length. -/
def Map.rectangular (m : Map) : Prop :=
  ∀ r1 ∈ m.grid, ∀ r2 ∈ m.grid, r1.length = r2.length

/-- In-bounds unfolded: the row exists and the column is inside it. -/
theorem inBounds_iff {m : Map} {l : Location} :
    inBounds m l ↔ ∃ row, m.grid.get? l.x = some row ∧ l.y < row.length := by
  unfold inBounds Map.get?
  cases hx : m.grid.get? l.x with
  | none => simp
  | some row =>
    simp only [Option.some_bind, Option.some.injEq]
    constructor
    · intro h
      refine ⟨row, rfl, ?_⟩
      by_contra hc
      rw [List.get?_eq_none.2 (by omega)] at h
      cases h
    · rintro ⟨row2, hrow2, hy⟩
      subst hrow2
      obtain ⟨v, hv⟩ : ∃ v, row.get? l.y = some v := by
        cases hg : row.get? l.y with
        | none => rw [List.get?_eq_none] at hg; omega
        | some v => exact ⟨v, rfl⟩
      rw [hv]
      rfl

/-- `get_location` only ever returns the queried, in-bounds location. -/
theorem get_location_inv {m : Map} {x y : Nat} {loc : Location}
    (h : m.get_location x y = some loc) :
    loc = Location.mk x y ∧ inBounds m loc := by
  unfold Map.get_location at h
  cases hx : m.grid.get? x with
  | none =>
    rw [hx] at h
    cases h
  | some row =>
    rw [hx] at h
    simp only [Option.some_bind] at h
    cases hy : row.get? y with
    | none =>
      rw [hy] at h
      cases h
    | some v =>
      rw [hy] at h
      simp only [Option.map_some', Option.some.injEq] at h
      refine ⟨h.symm, ?_⟩
      unfold inBounds Map.get?
      rw [← h]
      rw [show (Location.mk x y).x = x from rfl,
        show (Location.mk x y).y = y from rfl, hx]
      simp only [Option.some_bind]
      rw [hy]
      rfl

/-- On a rectangular grid, stepping from an in-bounds location in any
direction yields an in-bounds location (this is where rectangularity
matters: `go_direction` North and West reuse the current column/row index
without re-checking it against the new row). -/
theorem go_direction_inBounds {m : Map} (hrect : m.rectangular)
    {l l' : Location} (hl : inBounds m l) {d : Direction}
    (h : m.go_direction l d = some l') : inBounds m l' := by
  obtain ⟨row, hrow, hy⟩ := inBounds_iff.1 hl
  cases d with
  | East => exact (get_location_inv h).2
  | South => exact (get_location_inv h).2
  | North =>
    unfold Map.go_direction at h
    by_cases hx0 : l.x ≠ 0
    · rw [if_pos hx0] at h
      injection h with h2
      subst h2
      rw [inBounds_iff]
      have hxlen : l.x < m.grid.length := by
        by_contra hc
        rw [List.get?_eq_none.2 (by omega)] at hrow
        cases hrow
      obtain ⟨row2, hrow2⟩ : ∃ r, m.grid.get? (l.x - 1) = some r := by
        cases hg : m.grid.get? (l.x - 1) with
        | none => rw [List.get?_eq_none] at hg; omega
        | some r => exact ⟨r, rfl⟩
      refine ⟨row2, hrow2, ?_⟩
      have hsame : row2.length = row.length :=
        hrect row2 (List.get?_mem hrow2) row (List.get?_mem hrow)
      show l.y < row2.length
      omega
    · rw [if_neg hx0] at h
      cases h
  | West =>
    unfold Map.go_direction at h
    by_cases hy0 : l.y ≠ 0
    · rw [if_pos hy0] at h
      injection h with h2
      subst h2
      rw [inBounds_iff]
      exact ⟨row, hrow, show l.y - 1 < row.length by omega⟩
    · rw [if_neg hy0] at h
      cases h

/-- On a rectangular grid, `test_path` from an in-bounds state never
panics: the guarded step keeps the grid read in bounds. -/
theorem test_path_total {m : Map} (hrect : m.rectangular) {s : Movement}
    (hmap : s.map = m) (hs : inBounds m s.location) (store : Store)
    (d : Direction) : ∃ r, s.test_path store d = some r := by
  cases hgo : s.map.go_direction s.location d with
  | none => exact ⟨(none, store), by simp only [Movement.test_path, hgo]⟩
  | some l' =>
    have hgo2 : m.go_direction s.location d = some l' := hmap ▸ hgo
    have hb : inBounds m l' :=
      go_direction_inBounds hrect (hmap ▸ hs) hgo2
    obtain ⟨c, hc⟩ := Option.isSome_iff_exists.1 hb
    cases hcg : cacheGet (storeGet store s.best) l' d.idx with
    | none =>
      exact ⟨_, by simp only [Movement.test_path, hmap, hgo2, hc, hcg]; rfl⟩
    | some w =>
      by_cases hw : s.total_cost + c < w
      · exact ⟨_, by
          simp only [Movement.test_path, hmap, hgo2, hc, hcg, if_pos hw]; rfl⟩
      · exact ⟨_, by
          simp only [Movement.test_path, hmap, hgo2, hc, hcg, if_neg hw]; rfl⟩

/-- On a rectangular grid, the Continue block from an in-bounds state never
panics. -/
theorem continueStep_total {m : Map} (hrect : m.rectangular) {s : Movement}
    (hmap : s.map = m) (hs : inBounds m s.location) (out : List Movement)
    (st : Store) : ∃ r, s.continueStep out st = some r := by
  by_cases hcd : s.current_distance < s.max_distance
  · cases hgo : s.map.go_direction s.location s.direction with
    | none =>
      exact ⟨_, by simp only [Movement.continueStep, if_pos hcd, hgo]; rfl⟩
    | some l' =>
      have hgo2 : m.go_direction s.location s.direction = some l' :=
        hmap ▸ hgo
      have hb : inBounds m l' :=
        go_direction_inBounds hrect (hmap ▸ hs) hgo2
      obtain ⟨c, hc⟩ := Option.isSome_iff_exists.1 hb
      exact ⟨_, by
        simp only [Movement.continueStep, if_pos hcd, hmap, hgo2, hc]; rfl⟩
  · exact ⟨_, by simp only [Movement.continueStep, if_neg hcd]; rfl⟩

/-- `available_paths` under an allowed turn, expressed through the two
`test_path` calls. -/
theorem available_paths_turn_eq {s : Movement} {store store1 store2 : Store}
    {o1 o2 : Option Movement}
    (hcan : s.min_distance ≤ s.current_distance)
    (h1 : s.test_path store s.direction.left = some (o1, store1))
    (h2 : s.test_path store1 s.direction.right = some (o2, store2)) :
    s.available_paths store = s.continueStep (o1.toList ++ o2.toList) store2 := by
  simp only [Movement.available_paths, if_pos hcan, h1, h2]

/-- `available_paths` without a turn attempt is just the Continue block. -/
theorem available_paths_noturn_eq {s : Movement} {store : Store}
    (hncan : ¬ (s.min_distance ≤ s.current_distance)) :
    s.available_paths store = s.continueStep [] store := by
  simp only [Movement.available_paths, if_neg hncan]

/-- On a rectangular grid, expanding an in-bounds state never panics. -/
theorem available_paths_total {m : Map} (hrect : m.rectangular)
    {s : Movement} (hmap : s.map = m) (hs : inBounds m s.location)
    (store : Store) : ∃ r, s.available_paths store = some r := by
  by_cases hcan : s.min_distance ≤ s.current_distance
  · obtain ⟨⟨o1, store1⟩, h1⟩ := test_path_total hrect hmap hs store
      s.direction.left
    obtain ⟨⟨o2, store2⟩, h2⟩ := test_path_total hrect hmap hs store1
      s.direction.right
    rw [available_paths_turn_eq hcan h1 h2]
    exact continueStep_total hrect hmap hs _ _
  · rw [available_paths_noturn_eq hcan]
    exact continueStep_total hrect hmap hs _ _

/-- On a rectangular grid, the driving loop never panics: every state in
the frontier stays in bounds (the pop itself cannot fail — the loop only
pops after the emptiness check, mirroring the guarded `unwrap`), so every
grid read performed while expanding is in bounds. -/
theorem loop_no_crash {m : Map} (hrect : m.rectangular) (minD : Nat)
    (target : Location) :
    ∀ (fuel : Nat) (frontier : List Movement) (store : Store)
      (best : Option Movement),
      (∀ s ∈ frontier, s.map = m ∧ inBounds m s.location) →
      loop minD target fuel frontier store best ≠ Outcome.crash := by
  intro fuel
  induction fuel with
  | zero =>
    intro frontier store best _ hc
    exact Outcome.noConfusion hc
  | succ fuel ih =>
    intro frontier store best hinv
    cases hpop : popBest frontier with
    | none =>
      unfold loop
      rw [hpop]
      intro hc
      exact Outcome.noConfusion hc
    | some pr =>
      obtain ⟨node, rest⟩ := pr
      have hnode := hinv node (popBest_mem hpop).1
      obtain ⟨⟨nexts, store'⟩, hav⟩ :=
        available_paths_total hrect hnode.1 hnode.2 store
      rw [loop_cons fuel best hpop hav]
      apply ih
      intro s hs
      rcases List.mem_append.1 hs with hr | hn
      · exact hinv s ((popBest_mem hpop).2 s hr)
      · obtain ⟨hm, _, _, _, _, ⟨c, hc, _⟩, _⟩ := available_paths_mem hav s hn
        refine ⟨hm.trans hnode.1, ?_⟩
        have hcm : m.get? s.location = some c := by
          rw [← hnode.1]
          exact hc
        unfold inBounds
        rw [hcm]
        rfl

/-- A parsed line has one cost per character. -/
theorem parseLine_length {l : List Char} {ds : List Nat}
    (h : parseLine l = .ok ds) : ds.length = l.length := by
  induction l generalizing ds with
  | nil =>
    simp only [parseLine, Except.ok.injEq] at h
    rw [← h]
    rfl
  | cons c rest ih =>
    simp only [parseLine] at h
    split at h
    · cases h
    · split at h
      · cases h
      · rename_i ds2 hds2
        simp only [Except.ok.injEq] at h
        rw [← h]
        simp [ih hds2]

/-- Parsing preserves the row lengths of the input. -/
theorem parse_input_lengths {lines : List (List Char)} {m : Map}
    (h : parse_input lines = .ok m) :
    m.grid.map List.length = lines.map List.length := by
  induction lines generalizing m with
  | nil =>
    simp only [parse_input, Except.ok.injEq] at h
    rw [← h]
    rfl
  | cons line rest ih =>
    simp only [parse_input] at h
    split at h
    · cases h
    · rename_i row hrow
      split at h
      · cases h
      · rename_i m2 hm2
        simp only [Except.ok.injEq] at h
        rw [← h]
        simp [parseLine_length hrow, ih hm2]

/-- A rectangular character input parses to a rectangular grid. -/
theorem parse_rect {lines : List (List Char)} {m : Map}
    (h : parse_input lines = .ok m)
    (hrect : ∀ l1 ∈ lines, ∀ l2 ∈ lines, l1.length = l2.length) :
    m.rectangular := by
  intro r1 h1 r2 h2
  have hlen := parse_input_lengths h
  have e1 : r1.length ∈ lines.map List.length := by
    rw [← hlen]
    exact List.mem_map_of_mem _ h1
  have e2 : r2.length ∈ lines.map List.length := by
    rw [← hlen]
    exact List.mem_map_of_mem _ h2
  obtain ⟨l1, hl1, hl1e⟩ := List.mem_map.1 e1
  obtain ⟨l2, hl2, hl2e⟩ := List.mem_map.1 e2
  rw [← hl1e, ← hl2e]
  exact hrect l1 hl1 l2 hl2

/-- C9: for a well-formed input (non-empty rectangular grid of digits) the
search never hits an internal invariant violation: the embedding's `crash`
outcome — the Rust out-of-bounds panic of `Map::get` — is unreachable for
any amount of fuel and any run-length parameters, and the loop pops only
after its non-emptiness check by construction. -/
theorem seekEnd_no_crash (lines : List (List Char)) (minD maxD fuel : Nat)
    (hne : lines ≠ [])
    (hrect : ∀ l1 ∈ lines, ∀ l2 ∈ lines, l1.length = l2.length)
    (hcols : ∀ l ∈ lines, l ≠ ([] : List Char))
    (hdig : ∀ l ∈ lines, ∀ c ∈ l, (toDigit10 c).isSome) :
    seekEnd fuel lines minD maxD ≠ Outcome.crash := by
  cases hparse : parse_input lines with
  | error e =>
    have he : seekEnd fuel lines minD maxD = .err "Failed to parse input" := by
      simp only [seekEnd, hparse]
    rw [he]
    intro hc
    exact Outcome.noConfusion hc
  | ok m =>
    cases horig : m.get_location 0 0 with
    | none =>
      have he : seekEnd fuel lines minD maxD =
          .err "Expected to find (0,0)" := by
        simp only [seekEnd, hparse, horig]
      rw [he]
      intro hc
      exact Outcome.noConfusion hc
    | some origin =>
      obtain ⟨horigeq, hob⟩ := get_location_inv horig
      cases htgt : m.get_location (m.grid.length - 1)
          ((m.grid.getD (m.grid.length - 1) []).length - 1) with
      | none =>
        have he : seekEnd fuel lines minD maxD =
            .err "Expected to find bottom right" := by
          simp only [seekEnd, hparse, horig, htgt]
        rw [he]
        intro hc
        exact Outcome.noConfusion hc
      | some target =>
        have he : seekEnd fuel lines minD maxD =
            loop minD target fuel
              [⟨m, origin, .East, minD, maxD, 0, 0, 0⟩,
                ⟨m, origin, .South, minD, maxD, 0, 0, 1⟩]
              [mkCache m, mkCache m] none := by
          simp only [seekEnd, hparse, horig, htgt, mkSeeds, Movement.new,
            List.nil_append, List.singleton_append, List.length_nil,
            List.length_singleton, List.length_append, List.length_cons,
            Nat.zero_add]
        rw [he]
        apply loop_no_crash (parse_rect hparse hrect) minD target fuel
        intro s hs
        rcases List.mem_cons.1 hs with rfl | hs2
        · exact ⟨rfl, hob⟩
        · rcases List.mem_cons.1 hs2 with rfl | hs3
          · exact ⟨rfl, hob⟩
          · cases hs3

theorem seekEnd_no_crash_witness :
    ([['1', '2'], ['3', '4']] : List (List Char)) ≠ [] ∧
    (∀ l1 ∈ [['1', '2'], ['3', '4']], ∀ l2 ∈ [['1', '2'], ['3', '4']],
      List.length l1 = List.length l2) ∧
    (∀ l ∈ [['1', '2'], ['3', '4']], l ≠ ([] : List Char)) ∧
    (∀ l ∈ [['1', '2'], ['3', '4']], ∀ c ∈ l, (toDigit10 c).isSome) ∧
    seekEnd 9 [['1', '2'], ['3', '4']] 0 3 ≠ Outcome.crash :=
  ⟨by decide, by decide, by decide, by decide,
    seekEnd_no_crash [['1', '2'], ['3', '4']] 0 3 9 (by decide) (by decide)
      (by decide) (by decide)⟩
